import Mathlib

namespace BetFinder

/-!
# Verification of the betfinder core against its specification

Shallow embedding, in Lean 4, of the parts of the betfinder repository that
the frozen claims are about:

* `StakeCalculator.calculate_stake`      (app/services/stake_calculator.py)
* the circuit breaker of `APIBookmaker`  (app/services/bookmakers/base.py)
* `OddsAnalysisService.calculate_benchmark_values` (app/services/analysis.py)
* the hidden-item suppression predicates of `TradeFinderService`
                                          (app/services/analytics/trade_finder.py)
* `AutoTradeService` (execute_auto_trades / _process_preset /
  _sort_opportunities / _place_bet_for_opportunity)   (app/services/auto_trade.py)
* the fuzzy entity-mapping of `APIBookmaker` (resolve_mapping /
  _fuzzy_match_league and the difflib ratio helpers)  (app/services/bookmakers/base.py)
* `job_cleanup_hidden_items`             (app/services/scheduler.py)

Python floats are modelled by exact rationals (`ℚ`); `round(x, 2)` is
modelled by round-half-to-even on hundredths — the rule Python's `round`
applies to the value of its float argument.  (The models can differ from
binary floats only at exact decimal ties such as 0.025, where the float
is epsilon away from the tie; every concrete input used below stays away
from ties, where the two agree.)  Timestamps (`time.time()`, `datetime`)
are modelled as rationals counting seconds.
-/

/-! ## Rounding: Python's `round(x, 2)` on exact rationals -/

/-- Round a rational to the nearest integer, ties to even — the rounding
`round` uses in Python (on the value, exactly represented here). -/
def roundHalfEven (q : ℚ) : ℤ :=
  if q - (⌊q⌋ : ℚ) < 1/2 then ⌊q⌋
  else if 1/2 < q - (⌊q⌋ : ℚ) then ⌊q⌋ + 1
  else if 2 ∣ ⌊q⌋ then ⌊q⌋ else ⌊q⌋ + 1

/-- `round(x, 2)`: round to the nearest hundredth. -/
def round2 (q : ℚ) : ℚ := (roundHalfEven (q * 100) : ℚ) / 100

/-! ## StakeCalculator.calculate_stake (stake_calculator.py, lines 17-110) -/

/-- The Kelly fraction as the source computes it (`b = odds - 1`,
`kelly_fraction = (b*p - q)/b`, then `* kelly_multiplier`). -/
def kellyFraction (p o km : ℚ) : ℚ := ((o - 1) * p - (1 - p)) / (o - 1) * km

/-- The strategy dispatch of `calculate_stake` (lines 44-96), before the
`max_stake` cap, the `max(0, ·)` clamp and the rounding.  `Option ℚ`
stands for Python's optional float arguments; `default_stake or 10.0`
(Python truthiness: `0.0` is falsy) appears as the `= 0` test.  Note that
for `strategy = "kelly"` with `odds = 1` the Python source raises
`ZeroDivisionError`; here `ℚ` division by zero yields `0`, and no theorem
below relies on that point. -/
def rawStake (strategy : String) (default_stake bankroll : ℚ)
    (probability odds percent_risk kelly_multiplier : Option ℚ) : ℚ :=
  if strategy == "fixed" then (if default_stake = 0 then 10 else default_stake)
  else if strategy == "risk" then bankroll * (percent_risk.getD 10 / 100)
  else if strategy == "kelly" then
    match probability, odds with
    | some p, some o =>
      if kellyFraction p o (kelly_multiplier.getD 1) ≤ 0 then 0
      else if 1 < kellyFraction p o (kelly_multiplier.getD 1) then bankroll * 1
      else bankroll * kellyFraction p o (kelly_multiplier.getD 1)
    | _, _ => (if default_stake = 0 then 10 else default_stake)
  else (if default_stake = 0 then 10 else default_stake)

/-- The `max_stake` cap (lines 98-101): `if stake > max_stake: stake = max_stake`. -/
def capStake (max_stake : Option ℚ) (stake : ℚ) : ℚ :=
  match max_stake with
  | some m => if m < stake then m else stake
  | none => stake

/-- Transliteration of `StakeCalculator.calculate_stake` (lines 17-110):
strategy dispatch, then cap at `max_stake`, clamp at `0`, round to two
decimals. -/
def calculate_stake (strategy : String) (default_stake bankroll : ℚ)
    (probability odds percent_risk kelly_multiplier max_stake : Option ℚ) : ℚ :=
  round2 (max 0 (capStake max_stake
    (rawStake strategy default_stake bankroll probability odds percent_risk kelly_multiplier)))

/-! ## Circuit breaker of `APIBookmaker` (bookmakers/base.py, lines 189-330)

Per-adapter-instance state: `_recent_errors` (timestamps of failures) and
`_circuit_open_until`.  `_error_threshold = 10`, `_error_window = 300`
seconds, `_cool_off_duration = 3600` seconds. -/

structure CBState where
  recentErrors : List ℚ
  openUntil : ℚ
deriving DecidableEq

/-- `_recent_errors` after `_handle_request_error` appends `now` and prunes
to the rolling window: `[t for t in self._recent_errors if t > now - 300]`. -/
def prunedErrors (now : ℚ) (errors : List ℚ) : List ℚ :=
  (errors ++ [now]).filter (fun t => decide (now - 300 < t))

/-- Transliteration of `APIBookmaker._handle_request_error` (lines 279-307):
record the failure, prune the window, and when 10 or more failures remain
trip the circuit for one hour and clear the error history.  (The operator
notification it also sends has no effect on this state.) -/
def handleRequestError (now : ℚ) (st : CBState) : CBState :=
  let pruned := prunedErrors now st.recentErrors
  if 10 ≤ pruned.length then { recentErrors := [], openUntil := now + 3600 }
  else { recentErrors := pruned, openUntil := st.openUntil }

inductive ReqOutcome where
  | circuitOpen
  | success
  | failure
deriving DecidableEq

/-- One call to `APIBookmaker.make_request` (lines 309-398), as far as the
circuit breaker is concerned.  `_check_circuit_breaker` runs first (step 0,
before the rate limiter and before any network I/O): while
`now < _circuit_open_until` it raises, so the call fails with no network
attempt and no state change.  Otherwise the network is attempted
(`netFails` says whether it raises); a failure goes through
`_handle_request_error`.  The returned `Bool` reports whether the network
was attempted. -/
def makeRequestStep (now : ℚ) (netFails : Bool) (st : CBState) :
    ReqOutcome × CBState × Bool :=
  if now < st.openUntil then (.circuitOpen, st, false)
  else if netFails then (.failure, handleRequestError now st, true)
  else (.success, st, true)

/-- A sequence of `make_request` calls, each a (timestamp, does-the-network-
call-fail) pair, threaded through the adapter's circuit-breaker state. -/
def runRequests (st : CBState) : List (ℚ × Bool) → CBState
  | [] => st
  | (t, nf) :: rest => runRequests (makeRequestStep t nf st).2.1 rest

/-! ## Fair-odds estimator (analysis.py, `calculate_benchmark_values`)

The per-market step (lines 53-115): group the market's odds rows by
bookmaker and, when the benchmark (Pinnacle) has rows, write margin /
fair probability / true odds onto them and propagate to the others. -/

structure ARow where
  bookmakerId : ℕ
  normalizedSelection : String
  price : ℚ
  impliedProbability : Option ℚ
  trueOdds : Option ℚ
  margin : Option ℚ
deriving DecidableEq

/-- `fair_probs` is a Python dict filled row by row, so on duplicate
normalized selections the last row wins. -/
def lastAssoc (l : List (String × ℚ)) (k : String) : Option ℚ :=
  (l.reverse.find? (fun p => p.1 == k)).map (fun p => p.2)

/-- `if not o.implied_probability: o.implied_probability = 1.0/o.price`
(Python truthiness: `None` and `0.0` are falsy). -/
def naiveImplied (o : ARow) : Option ℚ :=
  match o.impliedProbability with
  | none => some (1 / o.price)
  | some x => if x = 0 then some (1 / o.price) else some x

/-- The sum `Σ 1/price` over one bookmaker's rows of the market. -/
def bkTotalProb (bkId : ℕ) (odds : List ARow) : ℚ :=
  ((odds.filter (fun o => o.bookmakerId == bkId)).map (fun o => 1 / o.price)).sum

/-- Transliteration of the per-market body of
`OddsAnalysisService.calculate_benchmark_values` (lines 53-115), acting on
the market's odds rows.  `benchId` is the Pinnacle bookmaker id.  Rows are
updated in place in the source; here the list is mapped, each row updated
according to its bookmaker group. -/
def calculate_benchmark_values (benchId : ℕ) (odds : List ARow) : List ARow :=
  if (odds.filter (fun o => o.bookmakerId == benchId)).isEmpty then
    -- No Pinnacle odds for this market: every bookmaker gets its own naive
    -- implied probability and its own margin.
    odds.map (fun o =>
      { o with impliedProbability := naiveImplied o
               margin := some (bkTotalProb o.bookmakerId odds - 1) })
  else
    let total := bkTotalProb benchId odds
    let fairProbs := (odds.filter (fun o => o.bookmakerId == benchId)).map
      (fun o => (o.normalizedSelection, (1 / o.price) / total))
    odds.map (fun o =>
      if o.bookmakerId == benchId then
        { o with margin := some (total - 1)
                 impliedProbability := some ((1 / o.price) / total)
                 trueOdds := some (1 / ((1 / o.price) / total)) }
      else
        match lastAssoc fairProbs o.normalizedSelection with
        | some bp =>
          if bp ≠ 0 then
            { o with impliedProbability := some bp
                     trueOdds := some (1 / bp)
                     margin := some (bkTotalProb o.bookmakerId odds - 1) }
          else
            { o with impliedProbability := naiveImplied o
                     margin := some (bkTotalProb o.bookmakerId odds - 1) }
        | none =>
          { o with impliedProbability := naiveImplied o
                   margin := some (bkTotalProb o.bookmakerId odds - 1) })

/-- The per-row update function applied by `calculate_benchmark_values`
when the benchmark participates in the market (the second branch). -/
def benchUpdate (benchId : ℕ) (odds : List ARow) (o : ARow) : ARow :=
  if o.bookmakerId == benchId then
    { o with margin := some (bkTotalProb benchId odds - 1)
             impliedProbability := some ((1 / o.price) / bkTotalProb benchId odds)
             trueOdds := some (1 / ((1 / o.price) / bkTotalProb benchId odds)) }
  else
    match lastAssoc ((odds.filter (fun o2 => o2.bookmakerId == benchId)).map
        (fun o2 => (o2.normalizedSelection, (1 / o2.price) / bkTotalProb benchId odds)))
        o.normalizedSelection with
    | some bp =>
      if bp ≠ 0 then
        { o with impliedProbability := some bp
                 trueOdds := some (1 / bp)
                 margin := some (bkTotalProb o.bookmakerId odds - 1) }
      else
        { o with impliedProbability := naiveImplied o
                 margin := some (bkTotalProb o.bookmakerId odds - 1) }
    | none =>
      { o with impliedProbability := naiveImplied o
               margin := some (bkTotalProb o.bookmakerId odds - 1) }

/-! ## Hidden-item suppression (trade_finder.py) and expiry (scheduler.py)

`PresetHiddenItem` (db/models.py, lines 130-141): `event_id : String`
(non-null), `market_key` and `selection_norm` nullable, `expiry_at` a
timestamp.  `Event.id` and `Odds.normalized_selection` are non-null
strings, so the row side carries plain strings.  Timestamps are rationals
counting seconds. -/

structure HiddenItem where
  presetId : ℕ
  eventId : String
  marketKey : Option String
  selectionNorm : Option String
  expiryAt : ℚ
deriving DecidableEq

/-- One joined scan row, as far as hidden-item matching reads it. -/
structure ScanRow where
  eventId : String
  marketKey : String
  normalizedSelection : String
deriving DecidableEq

/-- The body of the SQL `EXISTS` subquery of `scan_opportunities`
(trade_finder.py, lines 150-166), for one `PresetHiddenItem` row.  SQL
equality against a NULL column is never true, so `market_key == Market.key`
and `selection_norm == Odds.normalized_selection` hold only when the
nullable column is non-null and equal. -/
def sqlHiddenMatch (pid : ℕ) (h : HiddenItem) (r : ScanRow) : Bool :=
  h.presetId == pid && h.eventId == r.eventId &&
    (h.marketKey.isNone ||
     (h.marketKey == some r.marketKey && h.selectionNorm.isNone) ||
     (h.marketKey == some r.marketKey && h.selectionNorm == some r.normalizedSelection))

/-- The main scan path: `scan_opportunities` keeps a row only when NO
hidden item matches, i.e. it excludes the row exactly when this is true. -/
def scanExcludes (pid : ℕ) (items : List HiddenItem) (r : ScanRow) : Bool :=
  items.any (fun h => sqlHiddenMatch pid h r)

/-- The in-Python match of `scan_hidden_opportunities` (lines 519-538), for
one hidden item: the body of the `for hidden in preset.hidden_items` loop.
Python's `==` against `None` is plain inequality (never an error), and the
`break` on first match makes the loop an `any`. -/
def pyHiddenMatch (h : HiddenItem) (r : ScanRow) : Bool :=
  if h.eventId == r.eventId then
    if h.marketKey.isNone then true
    else if h.marketKey == some r.marketKey then
      if h.selectionNorm.isNone then true
      else h.selectionNorm == some r.normalizedSelection
    else false
  else false

/-- The hidden-opportunities path: `preset.hidden_items` is the list of
items with this preset id; the row is included exactly when some item
matches. -/
def hiddenScanIncludes (pid : ℕ) (items : List HiddenItem) (r : ScanRow) : Bool :=
  (items.filter (fun h => h.presetId == pid)).any (fun h => pyHiddenMatch h r)

/-- `job_cleanup_hidden_items` (scheduler.py, lines 211-217): delete the
items with `expiry_at < now - 1 day`. -/
def cleanupDeletes (now : ℚ) (h : HiddenItem) : Bool :=
  decide (h.expiryAt < now - 86400)

/-- The `PresetHiddenItem` inserted by
`AutoTradeService._process_after_trade_actions` (auto_trade.py, lines
503-507): expiry is a fixed 24 hours after insertion. -/
def autoTradeHiddenItem (pid : ℕ) (eventId : String)
    (marketKey selectionNorm : Option String) (now : ℚ) : HiddenItem :=
  ⟨pid, eventId, marketKey, selectionNorm, now + 24 * 3600⟩

/-! ## `AutoTradeService._sort_opportunities` (auto_trade.py, lines 163-205)

`sorted(opportunities, key=safe_key, reverse=reverse)` with
`safe_key(o) = (1, 0)` when the configured key value is `None` and
`(0, value)` otherwise.  Python's sort is stable; `reverse=True` sorts by
the inverted comparison, keeping the original order of equal keys. -/

/-- A sort-key value: the configured keys are floats/datetimes (modelled as
`ℚ`) or, for `home`, a string.  One `sort_by` setting always produces the
same constructor, as in the source (Python would raise on a mixed
comparison). -/
inductive KeyV where
  | num (q : ℚ)
  | str (s : String)
deriving DecidableEq

def keyvLt : KeyV → KeyV → Bool
  | .num a, .num b => decide (a < b)
  | .str a, .str b => decide (a < b)
  | _, _ => false

/-- Python's tuple comparison on `safe_key` values: `(1, 0)` for a missing
value, `(0, v)` for a present one; `(0, _) < (1, _)`, two missing keys are
equal. -/
def skeyLt : Option KeyV → Option KeyV → Bool
  | some a, some b => keyvLt a b
  | some _, none => true
  | none, _ => false

/-- A stable insertion sort: `x` goes in front of the first `y` with
`le x y`.  For a total preorder `le` this returns the same list as
Python's stable `sorted`. -/
def pyInsert {α : Type} (le : α → α → Bool) (x : α) : List α → List α
  | [] => [x]
  | y :: ys => if le x y then x :: y :: ys else y :: pyInsert le x ys

def pySort {α : Type} (le : α → α → Bool) : List α → List α
  | [] => []
  | x :: xs => pyInsert le x (pySort le xs)

/-- A `TradeOpportunity` as `_sort_opportunities` reads it.  Only `edge`
can actually be `None` in rows produced by the scanner (when
`ignore_benchmarks` admits rows without `true_odds`), but the sort handles
a missing value for any key. -/
structure SOpp where
  edge : Option ℚ
  commence_time : Option ℚ
  price : Option ℚ
  implied_probability : Option ℚ
  home_team : Option String
deriving DecidableEq

/-- `sort_key_map` (lines 180-186): the accessor for each `sort_by`; an
unknown key falls back to `edge`.  `home` never yields a missing value:
`(o.event.home_team or "").lower()`. -/
def oppKey (sort_by : String) (o : SOpp) : Option KeyV :=
  if sort_by == "start_time" then o.commence_time.map .num
  else if sort_by == "price" then o.price.map .num
  else if sort_by == "implied_probability" then o.implied_probability.map .num
  else if sort_by == "home" then some (.str (o.home_team.getD "").toLower)
  else o.edge.map .num

/-- `preset.other_config` as the sort reads it. -/
structure SortConfig where
  sort_by : Option String
  sort_order : Option String

/-- Transliteration of `AutoTradeService._sort_opportunities`:
`sort_by = config.get("sort_by", "edge")`,
`sort_order = config.get("sort_order", "desc")`, `reverse = sort_order != "asc"`,
then a stable sort on `safe_key` (missing value ↦ `(1, 0)`), reversed
comparison when `reverse`. -/
def sortOpportunities (cfg : SortConfig) (opps : List SOpp) : List SOpp :=
  let sort_by := cfg.sort_by.getD "edge"
  let sort_order := cfg.sort_order.getD "desc"
  let reverse := sort_order != "asc"
  let key := oppKey sort_by
  let le : SOpp → SOpp → Bool :=
    if reverse then fun x y => ! skeyLt (key x) (key y)
    else fun x y => ! skeyLt (key y) (key x)
  pySort le opps

/-! ## `AutoTradeService._place_bet_for_opportunity` (auto_trade.py, lines 207-431)

The per-opportunity attempt: gate checks in source order, stake sizing
through `StakeCalculator`, then simulated or real placement.  The database
session is modelled by the list of persisted bets and the bookmaker's
balance; DB commits are modelled as succeeding (the happy-path semantics
of the session). -/

structure BetRec where
  eventId : String
  bookmakerId : ℕ
  marketKey : String
  selection : String
  price : ℚ
  stake : ℚ
  status : String
  externalId : Option String
deriving DecidableEq

structure PlaceState where
  bets : List BetRec
  balance : ℚ
deriving DecidableEq

/-- The odd/market/event fields the attempt reads. -/
structure OppInfo where
  eventId : String
  bookmakerId : ℕ
  marketKey : String
  selection : String
  normalizedSelection : String
  price : ℚ
  trueOdds : Option ℚ
deriving DecidableEq

/-- The preset's staking configuration (`other_config` plus
`preset.default_stake`). -/
structure PresetCfg where
  stakingStrategy : String
  percentRisk : Option ℚ
  kellyMultiplier : Option ℚ
  maxStake : Option ℚ
  simulate : Bool
  simulatedBankroll : Option ℚ
  defaultStake : Option ℚ
deriving DecidableEq

/-- The environment-dependent gates: `bookmaker.model_type == "api"`, the
registry lookup / `isinstance` check, `has_credentials()`, and
`_check_bet_delay` (which reads persisted bet history and the clock). -/
structure Gates where
  modelTypeApi : Bool
  instanceOk : Bool
  hasCredentials : Bool
  delayOk : Bool
deriving DecidableEq

/-- The bookmaker adapter's `place_bet` response, reduced to what the
caller reads: `result.get("success")` and `result.get("bet_id")`. -/
structure ApiResult where
  success : Bool
  betId : Option String
deriving DecidableEq

/-- Transliteration of `_place_bet_for_opportunity`.  Returns the updated
session state and the `True`/`False` result.  `calc_probability` prefers
`1/true_odds` (`if opportunity.odd.true_odds and ... > 0`, Python
truthiness) and falls back to `1/price`; `default_stake` is
`preset.default_stake or 10.0` at the call site (line 282).  On a real
placement whose API response is unsuccessful the function logs and returns
`False`: the constructed pending bet is never added to the session and the
balance is untouched. -/
def placeBetForOpportunity (cfg : PresetCfg) (g : Gates) (opp : OppInfo)
    (api : ApiResult) (st : PlaceState) : PlaceState × Bool :=
  if !g.modelTypeApi then (st, false)
  else if !g.instanceOk then (st, false)
  else if !g.hasCredentials then (st, false)
  else
    let effectiveBankroll := if cfg.simulate then cfg.simulatedBankroll.getD 1000 else st.balance
    let calcProbability :=
      match opp.trueOdds with
      | some t => if 0 < t then 1 / t else 1 / opp.price
      | none => 1 / opp.price
    let defaultStake :=
      match cfg.defaultStake with
      | some d => if d = 0 then 10 else d
      | none => 10
    let stake := calculate_stake cfg.stakingStrategy defaultStake effectiveBankroll
      (some calcProbability) (some opp.price) cfg.percentRisk cfg.kellyMultiplier cfg.maxStake
    if stake < 1/10 then (st, false)
    else if !cfg.simulate && decide (st.balance < stake) then (st, false)
    else if !g.delayOk then (st, false)
    else
      let bet : BetRec :=
        { eventId := opp.eventId, bookmakerId := opp.bookmakerId,
          marketKey := opp.marketKey, selection := opp.normalizedSelection,
          price := opp.price, stake := stake, status := "pending", externalId := none }
      if cfg.simulate then
        ({ bets := st.bets ++ [{ bet with status := "placed", externalId := some "SIM" }],
           balance := st.balance }, true)
      else if api.success then
        ({ bets := st.bets ++ [{ bet with status := "placed", externalId := api.betId }],
           balance := st.balance - stake }, true)
      else (st, false)

/-! ## `AutoTradeService.execute_auto_trades` / `_process_preset`
(auto_trade.py, lines 25-161)

`execute_auto_trades` processes every active auto-trade preset with one
shared `cycle_used_bookmakers` set.  `_process_preset` loops: scan, sort,
walk the opportunities skipping bookmakers already used this cycle,
attempt each remaining one; the first successful placement marks the
bookmaker used and restarts the scan; a pass with no placement ends the
preset.  Scans and attempt outcomes depend on the database and the
adapters, so they enter as oracles indexed by a global scan counter and a
global attempt counter; the unbounded `while True` carries fuel. -/

structure ExOpp where
  bookmakerId : ℕ
  eventId : String
deriving DecidableEq

/-- The inner `for opportunity in opportunities` loop of `_process_preset`
(lines 126-154): skip bookmakers already used this cycle; otherwise attempt
(an exception from the attempt is caught and the loop continues, like a
`False` result); stop at the first successful placement.  Returns the
placed opportunity, if any, and the advanced attempt counter. -/
def findPlacement (attempt : ℕ → ExOpp → Bool) :
    List ExOpp → List ℕ → ℕ → Option ExOpp × ℕ
  | [], _, k => (none, k)
  | o :: rest, used, k =>
    if o.bookmakerId ∈ used then findPlacement attempt rest used k
    else if attempt k o then (some o, k + 1)
    else findPlacement attempt rest used (k + 1)

/-- The `while True` of `_process_preset`: scan (the `i`-th scan result),
walk the pass; on a placement mark the bookmaker used, record the bet and
rescan; otherwise stop.  Returns (used, placed bookmaker ids, next scan
index, next attempt index). -/
def processPreset (attempt : ℕ → ExOpp → Bool) (scans : ℕ → List ExOpp) :
    ℕ → ℕ → ℕ → List ℕ → List ℕ → List ℕ × List ℕ × ℕ × ℕ
  | 0, i, k, used, placed => (used, placed, i, k)
  | fuel + 1, i, k, used, placed =>
    match findPlacement attempt (scans i) used k with
    | (none, k') => (used, placed, i + 1, k')
    | (some o, k') =>
      processPreset attempt scans fuel (i + 1) k' (o.bookmakerId :: used) (placed ++ [o.bookmakerId])

/-- One preset's run: its scan oracle and loop fuel. -/
structure PresetRun where
  scans : ℕ → List ExOpp
  fuel : ℕ

/-- `execute_auto_trades`: fold the presets over the shared
`cycle_used_bookmakers` set (an exception from `_process_preset` is caught
per preset and the set persists; the oracles absorb either outcome). -/
def executeAutoTrades (attempt : ℕ → ExOpp → Bool) :
    List PresetRun → List ℕ → List ℕ → ℕ → ℕ → List ℕ × List ℕ
  | [], used, placed, _, _ => (used, placed)
  | pr :: rest, used, placed, i, k =>
    let r := processPreset attempt pr.scans pr.fuel i k used placed
    executeAutoTrades attempt rest r.1 r.2.1 r.2.2.1 r.2.2.2

/-! ## difflib.SequenceMatcher.ratio

`simple_ratio` / `token_sort_ratio` / `token_set_ratio` and
`_fuzzy_match_league` (bookmakers/base.py) all score through
`difflib.SequenceMatcher(None, a, b).ratio()`: `2*M/(len(a)+len(b))` where
`M` is the total size of the matching blocks found by the recursive
longest-matching-block decomposition.  The junk machinery (an `isjunk`
argument is never passed, and `autojunk` only acts when `len(b) >= 200`)
is inert for every string compared here, so the junk-extension loops of
`find_longest_match` are no-ops and the `b2j` index holds every position. -/

/-- The positions of character `c` in `b`, ascending — `b2j[c]`. -/
def charPositions (c : Char) (b : List Char) : List ℕ :=
  (List.range b.length).filter (fun j => b.getD j default == c)

/-- `j2len.get(j, 0)` on the association list of the previous row. -/
def lookupD (m : List (ℕ × ℕ)) (k : ℕ) : ℕ :=
  ((m.find? (fun p => p.1 == k)).map (fun p => p.2)).getD 0

/-- The inner `for j in b2j.get(a[i], [])` loop of `find_longest_match`:
positions below `blo` are skipped, positions at or above `bhi` ignored
(Python `break`s there; the list is ascending so the effect is the same);
each run length extends the diagonal run ending at `(i-1, j-1)`.
`best = (besti, bestj, bestsize)` improves on strictly longer runs. -/
def flmInner (i blo bhi : ℕ) (js : List ℕ) (j2len : List (ℕ × ℕ))
    (best : ℕ × ℕ × ℕ) : List (ℕ × ℕ) × (ℕ × ℕ × ℕ) :=
  js.foldl
    (fun acc j =>
      if blo ≤ j ∧ j < bhi then
        let k := (if j = 0 then 0 else lookupD j2len (j - 1)) + 1
        let best' := if acc.2.2.2 < k then (i + 1 - k, j + 1 - k, k) else acc.2
        ((j, k) :: acc.1, best')
      else acc)
    ([], best)

/-- The outer `for i in range(alo, ahi)` loop. -/
def flmLoop (a b : List Char) (alo ahi blo bhi : ℕ) : ℕ × ℕ × ℕ :=
  ((List.range' alo (ahi - alo)).foldl
    (fun (acc : List (ℕ × ℕ) × (ℕ × ℕ × ℕ)) i =>
      flmInner i blo bhi (charPositions (a.getD i default) b) acc.1 acc.2)
    ([], (alo, blo, 0))).2

/-- The first extension loop (extend the best block leftwards over
matching, non-junk characters). -/
def extendLeft (a b : List Char) (alo blo : ℕ) : ℕ → ℕ × ℕ × ℕ → ℕ × ℕ × ℕ
  | 0, best => best
  | fuel + 1, (bi, bj, bs) =>
    if alo < bi ∧ blo < bj ∧ a.getD (bi - 1) default == b.getD (bj - 1) default then
      extendLeft a b alo blo fuel (bi - 1, bj - 1, bs + 1)
    else (bi, bj, bs)

/-- The second extension loop (rightwards). -/
def extendRight (a b : List Char) (ahi bhi : ℕ) : ℕ → ℕ × ℕ × ℕ → ℕ × ℕ × ℕ
  | 0, best => best
  | fuel + 1, (bi, bj, bs) =>
    if bi + bs < ahi ∧ bj + bs < bhi ∧ a.getD (bi + bs) default == b.getD (bj + bs) default then
      extendRight a b ahi bhi fuel (bi, bj, bs + 1)
    else (bi, bj, bs)

/-- `SequenceMatcher.find_longest_match` over `a[alo:ahi]` / `b[blo:bhi]`
(no junk, see the section comment).  The `while` loops run at most
`a.length` times; the fuel is sufficient for that. -/
def find_longest_match (a b : List Char) (alo ahi blo bhi : ℕ) : ℕ × ℕ × ℕ :=
  extendRight a b ahi bhi (a.length + 1)
    (extendLeft a b alo blo (a.length + 1) (flmLoop a b alo ahi blo bhi))

/-- The total matched size over `get_matching_blocks`'s recursive
decomposition: the longest block plus the totals of the region before it
and the region after it.  Each recursive region is strictly smaller, so
fuel `(ahi - alo) + (bhi - blo) + 1` (what `sm_ratio` passes, via the full
lengths) always suffices; `ratio()` only reads this total. -/
def matchesTotal (a b : List Char) : ℕ → ℕ → ℕ → ℕ → ℕ → ℕ
  | 0, _, _, _, _ => 0
  | fuel + 1, alo, ahi, blo, bhi =>
    match find_longest_match a b alo ahi blo bhi with
    | (i, j, k) =>
      if k = 0 then 0
      else k + matchesTotal a b fuel alo i blo j + matchesTotal a b fuel (i + k) ahi (j + k) bhi

/-- `SequenceMatcher(None, sa, sb).ratio()` as an exact rational:
`2*M/T` over the total character count, `1.0` when both are empty. -/
def sm_ratio (sa sb : String) : ℚ :=
  if sa.toList.length + sb.toList.length = 0 then 1
  else 2 * (matchesTotal sa.toList sb.toList (sa.toList.length + sb.toList.length + 1)
      0 sa.toList.length 0 sb.toList.length : ℚ) /
    ((sa.toList.length + sb.toList.length : ℕ) : ℚ)

/-! ## Fuzzy entity mapping (bookmakers/base.py, lines 15-71 and 464-595) -/

/-- `COUNTRY_SYNONYMS` (lines 17-29). -/
def COUNTRY_SYNONYMS : List (String × String) :=
  [("dutch", "netherlands"), ("french", "france"), ("german", "germany"),
   ("spanish", "spain"), ("italian", "italy"), ("english", "england"),
   ("portuguese", "portugal"), ("brazilian", "brazil"), ("russian", "russia"),
   ("belgian", "belgium"), ("american", "usa")]

def isTokenChar (c : Char) : Bool :=
  (('a' ≤ c && c ≤ 'z') || ('A' ≤ c && c ≤ 'Z') || ('0' ≤ c && c ≤ '9'))

def tokAux : List Char → List Char → List (List Char)
  | [], cur => if cur.isEmpty then [] else [cur.reverse]
  | c :: cs, cur =>
    if isTokenChar c then tokAux cs (c :: cur)
    else if cur.isEmpty then tokAux cs []
    else cur.reverse :: tokAux cs []

/-- `tokenize` (lines 31-32): lower-case, then the non-empty runs between
`[^a-zA-Z0-9]+` separators.  (`Char.toLower` lower-cases ASCII, which is
what `str.lower()` does on the ASCII names handled here.) -/
def tokenize (s : String) : List String :=
  (tokAux (s.toList.map Char.toLower) []).map (fun l => String.mk l)

/-- `normalize_title` (lines 34-39): map tokens through the synonym table
and re-join with single spaces. -/
def normalize_title (s : String) : String :=
  String.intercalate " "
    ((tokenize s).map (fun t => (((COUNTRY_SYNONYMS.find? (fun p => p.1 == t)).map
      (fun p => p.2)).getD t)))

/-- Python string `<`: lexicographic on code points. -/
def charListLt : List Char → List Char → Bool
  | [], [] => false
  | [], _ :: _ => true
  | _ :: _, [] => false
  | c :: cs, d :: ds =>
    if c.toNat < d.toNat then true
    else if d.toNat < c.toNat then false
    else charListLt cs ds

/-- Python's `sorted` on strings (stable; for the total order on strings
the stable insertion sort returns the sorted permutation). -/
def pySortStrings (l : List String) : List String :=
  pySort (fun a b => ! charListLt b.toList a.toList) l

/-- `token_sort_ratio` (lines 44-51). -/
def token_sort_ratio (s1 s2 : String) : ℚ :=
  let n1 := normalize_title s1
  let n2 := normalize_title s2
  let t1 := pySortStrings (tokenize n1)
  let t2 := pySortStrings (tokenize n2)
  sm_ratio (String.intercalate " " t1) (String.intercalate " " t2)

/-- `token_set_ratio` (lines 53-71).  Python's `set` + `sorted` gives the
distinct tokens in sorted order; `dedup` keeps the first occurrence, which
the sort then orders. -/
def token_set_ratio (s1 s2 : String) : ℚ :=
  let n1 := normalize_title s1
  let n2 := normalize_title s2
  let t1 := (tokenize n1).dedup
  let t2 := (tokenize n2).dedup
  let inter := t1.filter (fun t => t2.contains t)
  if inter.isEmpty then 0
  else
    let sorted_inter := String.intercalate " " (pySortStrings inter)
    let sorted_t1 := String.intercalate " " (pySortStrings t1)
    let sorted_t2 := String.intercalate " " (pySortStrings t2)
    max (sm_ratio sorted_inter sorted_t1)
      (max (sm_ratio sorted_inter sorted_t2) (sm_ratio sorted_t1 sorted_t2))

structure LeagueRec where
  key : String
  title : String
deriving DecidableEq

structure MappingRec where
  source : String
  mtype : String
  externalKey : String
  internalKey : String
  externalName : String
deriving DecidableEq

/-- The per-candidate score of `_fuzzy_match_league` (lines 555-564):
`score_simple` is the plain ratio of the two `normalize_title`d names;
`effective_set = score_set if score_sort > 0.6 else 0.0`;
`current_best = max(score_simple, score_sort, effective_set)`. -/
def candidateScore (externalName candTitle : String) : ℚ :=
  let score_simple := sm_ratio (normalize_title externalName) (normalize_title candTitle)
  let score_sort := token_sort_ratio externalName candTitle
  let score_set := token_set_ratio externalName candTitle
  let effective_set := if 3/5 < score_sort then score_set else 0
  max score_simple (max score_sort effective_set)

/-- The score C8 asserts (spec wording, for comparison with the code's
`candidateScore`): the best of plain ratio, token-sort ratio and token-set
ratio, unconditionally. -/
def claimCandidateScore (externalName candTitle : String) : ℚ :=
  max (sm_ratio (normalize_title externalName) (normalize_title candTitle))
    (max (token_sort_ratio externalName candTitle) (token_set_ratio externalName candTitle))

/-- The candidate loop of `_fuzzy_match_league` (lines 547-568): skip
leagues of the same bookmaker (`cand.key.startswith(f"{self.key}_")`),
keep the best strictly-improving score. -/
def fuzzyBest (selfKey extName : String) (candidates : List LeagueRec) :
    ℚ × Option LeagueRec :=
  candidates.foldl
    (fun acc cand =>
      if (selfKey ++ "_").isPrefixOf cand.key then acc
      else if acc.1 < candidateScore extName cand.title then
        (candidateScore extName cand.title, some cand)
      else acc)
    (0, none)

/-- `_fuzzy_match_league` (lines 519-595): returns the resolved internal
key (`None` for PENDING) and the `Mapping` row it commits. -/
def fuzzy_match_league (selfKey externalId externalName : String)
    (candidates : List LeagueRec) : Option String × MappingRec :=
  if candidates.isEmpty then
    (none, ⟨selfKey, "league", externalId, "PENDING", externalName⟩)
  else
    match (fuzzyBest selfKey externalName candidates).2 with
    | some bm =>
      if 17/20 < (fuzzyBest selfKey externalName candidates).1 then
        (some bm.key, ⟨selfKey, "league", externalId, bm.key, externalName⟩)
      else (none, ⟨selfKey, "league", externalId, "PENDING", externalName⟩)
    | none => (none, ⟨selfKey, "league", externalId, "PENDING", externalName⟩)

/-- `resolve_mapping` (lines 464-517): the mapping table is consulted
first; an existing `PENDING` row short-circuits to `None` with no fuzzy
attempt and no table change; an existing resolved row returns its key; on
a miss, a league goes through the fuzzy matcher and any other type is
recorded `PENDING`.  The table is the list of `Mapping` rows for this
source. -/
def resolve_mapping (selfKey mtype externalId externalName : String)
    (table : List MappingRec) (candidates : List LeagueRec) :
    Option String × List MappingRec :=
  match table.find? (fun m =>
      m.source == selfKey && m.mtype == mtype && m.externalKey == externalId) with
  | some m => if m.internalKey == "PENDING" then (none, table) else (some m.internalKey, table)
  | none =>
    if mtype == "league" then
      let r := fuzzy_match_league selfKey externalId externalName candidates
      (r.1, table ++ [r.2])
    else (none, table ++ [⟨selfKey, mtype, externalId, "PENDING", externalName⟩])

/-- The loop step of `fuzzyBest`. -/
def fuzzyStep (selfKey extName : String) (acc : ℚ × Option LeagueRec)
    (cand : LeagueRec) : ℚ × Option LeagueRec :=
  if (selfKey ++ "_").isPrefixOf cand.key then acc
  else if acc.1 < candidateScore extName cand.title then
    (candidateScore extName cand.title, some cand)
  else acc

/-- The score C8 holds after amendment: token-set enters the maximum only
when the token-sort ratio exceeds 0.6. -/
def amendedCandidateScore (externalName candTitle : String) : ℚ :=
  max (sm_ratio (normalize_title externalName) (normalize_title candTitle))
    (max (token_sort_ratio externalName candTitle)
      (if 3/5 < token_sort_ratio externalName candTitle
       then token_set_ratio externalName candTitle else 0))

/-! ## The claims -/

/-- A concrete market for the C4 witness: the benchmark (id 1) quotes
Home@2.00 / Away@2.00, a second bookmaker (id 2) quotes Home@4.00. -/
def benchOdds : List ARow :=
  [⟨1, "home", 2, none, none, none⟩, ⟨1, "away", 2, none, none, none⟩,
   ⟨2, "home", 4, none, none, none⟩]

/-- A scanner row whose edge key is missing (`None`), for C7. -/
def oppMissingEdge : SOpp := ⟨none, some 0, some 2, some 1, some "Home"⟩

/-- A scanner row with an edge value present, for C7. -/
def oppPresentEdge : SOpp := ⟨some 5, some 0, some 2, some 1, some "Away"⟩

/-! ## Proofs -/

theorem roundHalfEven_nonneg {q : ℚ} (h : 0 ≤ q) : 0 ≤ roundHalfEven q := by
  unfold roundHalfEven
  have hf : (0 : ℤ) ≤ ⌊q⌋ := Int.floor_nonneg.mpr h
  split_ifs <;> omega

theorem roundHalfEven_le_floor_add_one (q : ℚ) : roundHalfEven q ≤ ⌊q⌋ + 1 := by
  unfold roundHalfEven
  split_ifs <;> omega

theorem floor_le_roundHalfEven (q : ℚ) : ⌊q⌋ ≤ roundHalfEven q := by
  unfold roundHalfEven
  split_ifs <;> omega

theorem roundHalfEven_mono {a b : ℚ} (h : a ≤ b) :
    roundHalfEven a ≤ roundHalfEven b := by
  have hf : ⌊a⌋ ≤ ⌊b⌋ := Int.floor_mono h
  rcases lt_or_eq_of_le hf with hlt | heq
  · calc roundHalfEven a ≤ ⌊a⌋ + 1 := roundHalfEven_le_floor_add_one a
    _ ≤ ⌊b⌋ := by omega
    _ ≤ roundHalfEven b := floor_le_roundHalfEven b
  · have hfrac : a - (⌊a⌋ : ℚ) ≤ b - (⌊b⌋ : ℚ) := by
      rw [← heq]; linarith
    unfold roundHalfEven
    rw [← heq]
    split_ifs <;> first | omega | linarith

theorem round2_nonneg {q : ℚ} (h : 0 ≤ q) : 0 ≤ round2 q := by
  unfold round2
  have := roundHalfEven_nonneg (q := q * 100) (by positivity)
  positivity

theorem round2_mono {a b : ℚ} (h : a ≤ b) : round2 a ≤ round2 b := by
  unfold round2
  have hmono := roundHalfEven_mono (a := a * 100) (b := b * 100) (by linarith)
  have h100 : (0 : ℚ) < 100 := by norm_num
  exact (div_le_div_iff_of_pos_right h100).mpr (by exact_mod_cast hmono)

theorem max_capStake_zero (ms : Option ℚ) : max 0 (capStake ms 0) = 0 := by
  cases ms with
  | none => simp [capStake]
  | some m =>
    simp only [capStake]
    split_ifs with h
    · exact max_eq_left (le_of_lt h)
    · simp

theorem round2_zero : round2 0 = 0 := by
  norm_num [round2, roundHalfEven]

/-- C5, part refuted by the counterexample below, restated as the code has
it.  Kelly with `odds > 1`, a non-negative (or absent) multiplier and
`probability ≤ 1/odds` yields a zero stake. -/
theorem kelly_no_edge_zero (default_stake bankroll p o : ℚ)
    (pr km max_stake : Option ℚ)
    (ho : 1 < o) (hkm : 0 ≤ km.getD 1) (hpo : p ≤ 1 / o) :
    calculate_stake "kelly" default_stake bankroll (some p) (some o) pr km max_stake = 0 := by
  have hb : (0 : ℚ) < o - 1 := by linarith
  have hopos : (0 : ℚ) < o := by linarith
  have hop : o * p ≤ 1 := by
    calc o * p ≤ o * (1 / o) := mul_le_mul_of_nonneg_left hpo (le_of_lt hopos)
    _ = 1 := by field_simp
  have hnum : (o - 1) * p - (1 - p) ≤ 0 := by nlinarith
  have hkf : kellyFraction p o (km.getD 1) ≤ 0 := by
    unfold kellyFraction
    exact mul_nonpos_of_nonpos_of_nonneg (div_nonpos_of_nonpos_of_nonneg hnum (le_of_lt hb)) hkm
  have hraw : rawStake "kelly" default_stake bankroll (some p) (some o) pr km = 0 := by
    simp [rawStake, hkf]
  rw [calculate_stake, hraw, max_capStake_zero, round2_zero]

/-- Every stake `calculate_stake` returns is non-negative: the clamp
`max(0.0, stake)` runs before the rounding, and rounding preserves sign. -/
theorem calculate_stake_nonneg (strategy : String) (ds bk : ℚ)
    (p o pr km ms : Option ℚ) :
    0 ≤ calculate_stake strategy ds bk p o pr km ms :=
  round2_nonneg (le_max_left 0 _)

/-- With a non-negative `max_stake` configured, the returned stake never
exceeds `max_stake` rounded to two decimals (the rounding runs after the
cap, so the cap value itself is what gets rounded). -/
theorem calculate_stake_le_cap (strategy : String) (ds bk : ℚ)
    (p o pr km : Option ℚ) (m : ℚ) (hm : 0 ≤ m) :
    calculate_stake strategy ds bk p o pr km (some m) ≤ round2 m := by
  unfold calculate_stake
  apply round2_mono
  set s := rawStake strategy ds bk p o pr km with hs
  simp only [capStake]
  split_ifs with h
  · exact max_le hm (le_refl m)
  · exact max_le hm (le_of_not_lt h)

/-- `fixed` with a non-zero `default_stake` returns the default stake,
clamped to be non-negative and rounded to two decimals. -/
theorem fixed_stake_nonzero (d bk : ℚ) (p o pr km : Option ℚ) (hd : d ≠ 0) :
    calculate_stake "fixed" d bk p o pr km none = round2 (max 0 d) := by
  simp +decide only [calculate_stake, rawStake, capStake, if_neg hd]
  simp

/-- `fixed` with `default_stake = 0` returns `10`: Python's
`default_stake or 10.0` treats `0.0` as falsy. -/
theorem fixed_stake_zero (bk : ℚ) (p o pr km : Option ℚ) :
    calculate_stake "fixed" 0 bk p o pr km none = 10 := by
  simp +decide only [calculate_stake, rawStake, capStake]
  norm_num [round2, roundHalfEven]

theorem handleRequestError_trips (now : ℚ) (st : CBState)
    (h : 10 ≤ (prunedErrors now st.recentErrors).length) :
    handleRequestError now st = ⟨[], now + 3600⟩ := by
  simp [handleRequestError, h]

theorem makeRequestStep_open (now : ℚ) (nf : Bool) (st : CBState)
    (h : now < st.openUntil) :
    makeRequestStep now nf st = (.circuitOpen, st, false) := by
  simp [makeRequestStep, h]

theorem runRequests_open (u : ℚ) (errs : List ℚ) :
    ∀ reqs : List (ℚ × Bool), (∀ r ∈ reqs, r.1 < u) →
      runRequests ⟨errs, u⟩ reqs = ⟨errs, u⟩ := by
  intro reqs
  induction reqs with
  | nil => intro _; rfl
  | cons r rest ih =>
    intro hall
    obtain ⟨t, nf⟩ := r
    have ht : t < u := hall (t, nf) (List.mem_cons_self _ _)
    rw [runRequests, makeRequestStep_open t nf ⟨errs, u⟩ ht]
    exact ih (fun r hr => hall r (List.mem_cons_of_mem _ hr))

theorem filter_map_comm {α β : Type} (f : α → β) (p : β → Bool) (q : α → Bool)
    (h : ∀ a, p (f a) = q a) : ∀ l : List α, (l.map f).filter p = (l.filter q).map f := by
  intro l
  induction l with
  | nil => rfl
  | cons a rest ih =>
    by_cases hq : q a = true
    · simp [List.filter_cons, h a, hq, ih]
    · simp only [Bool.not_eq_true] at hq
      simp [List.filter_cons, h a, hq, ih]

theorem bkTotalProb_pos (benchId : ℕ) (odds : List ARow)
    (hpos : ∀ o ∈ odds, 0 < o.price)
    (hne : odds.filter (fun o => o.bookmakerId == benchId) ≠ []) :
    0 < bkTotalProb benchId odds := by
  unfold bkTotalProb
  apply List.sum_pos
  · intro x hx
    obtain ⟨o, ho, rfl⟩ := List.mem_map.mp hx
    have := hpos o (List.mem_of_mem_filter ho)
    positivity
  · simpa using hne

theorem calculate_benchmark_values_eq_map (benchId : ℕ) (odds : List ARow)
    (hne : odds.filter (fun o => o.bookmakerId == benchId) ≠ []) :
    calculate_benchmark_values benchId odds = odds.map (benchUpdate benchId odds) := by
  unfold calculate_benchmark_values benchUpdate
  rw [if_neg (by simpa using hne)]

theorem benchUpdate_bookmakerId (benchId : ℕ) (odds : List ARow) (o : ARow) :
    (benchUpdate benchId odds o).bookmakerId = o.bookmakerId := by
  unfold benchUpdate
  split_ifs <;> first | rfl | (rcases h : lastAssoc _ _ with _ | bp <;> simp [h] <;> split_ifs <;> rfl)

theorem benchUpdate_price (benchId : ℕ) (odds : List ARow) (o : ARow) :
    (benchUpdate benchId odds o).price = o.price := by
  unfold benchUpdate
  split_ifs <;> first | rfl | (rcases h : lastAssoc _ _ with _ | bp <;> simp [h] <;> split_ifs <;> rfl)

theorem benchUpdate_bench (benchId : ℕ) (odds : List ARow) (o : ARow)
    (h : o.bookmakerId = benchId) :
    benchUpdate benchId odds o =
      { o with margin := some (bkTotalProb benchId odds - 1)
               impliedProbability := some ((1 / o.price) / bkTotalProb benchId odds)
               trueOdds := some (1 / ((1 / o.price) / bkTotalProb benchId odds)) } := by
  unfold benchUpdate
  rw [if_pos (by simpa using h)]

theorem benchmark_rows_fields (benchId : ℕ) (odds : List ARow)
    (hne : odds.filter (fun o => o.bookmakerId == benchId) ≠ []) :
    ∀ o ∈ calculate_benchmark_values benchId odds, o.bookmakerId = benchId →
      o.impliedProbability = some ((1 / o.price) / bkTotalProb benchId odds) ∧
      o.trueOdds = some (1 / ((1 / o.price) / bkTotalProb benchId odds)) ∧
      o.margin = some (bkTotalProb benchId odds - 1) := by
  intro o ho hbk
  rw [calculate_benchmark_values_eq_map benchId odds hne] at ho
  obtain ⟨a, ha, rfl⟩ := List.mem_map.mp ho
  rw [benchUpdate_bookmakerId] at hbk
  rw [benchUpdate_bench benchId odds a hbk]
  exact ⟨rfl, rfl, rfl⟩

theorem benchmark_rows_sum_one (benchId : ℕ) (odds : List ARow)
    (hpos : ∀ o ∈ odds, 0 < o.price)
    (hne : odds.filter (fun o => o.bookmakerId == benchId) ≠ []) :
    (((calculate_benchmark_values benchId odds).filter
        (fun o => o.bookmakerId == benchId)).map
      (fun o => o.impliedProbability.getD 0)).sum = 1 := by
  have htot := bkTotalProb_pos benchId odds hpos hne
  rw [calculate_benchmark_values_eq_map benchId odds hne]
  rw [filter_map_comm (benchUpdate benchId odds) (fun o => o.bookmakerId == benchId)
      (fun o => o.bookmakerId == benchId)
      (fun a => by simp only [benchUpdate_bookmakerId]) odds]
  rw [List.map_map]
  have hmap : ((odds.filter (fun o => o.bookmakerId == benchId)).map
      ((fun o => o.impliedProbability.getD 0) ∘ benchUpdate benchId odds)) =
      ((odds.filter (fun o => o.bookmakerId == benchId)).map
        (fun o => (1 / o.price) * (bkTotalProb benchId odds)⁻¹)) := by
    apply List.map_congr_left
    intro a ha
    have hbk : a.bookmakerId = benchId := by
      have := List.mem_filter.mp ha
      simpa using this.2
    simp only [Function.comp]
    rw [benchUpdate_bench benchId odds a hbk]
    simp [div_eq_mul_inv]
  rw [hmap, List.sum_map_mul_right]
  have : ((odds.filter (fun o => o.bookmakerId == benchId)).map (fun o => 1 / o.price)).sum
      = bkTotalProb benchId odds := rfl
  rw [this]
  exact mul_inv_cancel₀ (ne_of_gt htot)

theorem sqlHiddenMatch_eq_py (pid : ℕ) (h : HiddenItem) (r : ScanRow) :
    sqlHiddenMatch pid h r = ((h.presetId == pid) && pyHiddenMatch h r) := by
  obtain ⟨hp, he, mk, sn, ex⟩ := h
  cases mk <;> cases sn <;>
    simp [sqlHiddenMatch, pyHiddenMatch] <;>
    cases heq : (he == r.eventId) <;>
    simp [heq] <;>
    simp_all [beq_eq_decide, Bool.and_comm, Bool.and_left_comm, Bool.and_assoc] <;>
    first
      | rfl
      | exact decide_eq_decide.mpr Iff.rfl
      | (congr 1 <;> first
          | rfl
          | exact decide_eq_decide.mpr Iff.rfl
          | (congr 1 <;> first
              | rfl
              | exact decide_eq_decide.mpr Iff.rfl))

theorem any_filter_eq {α : Type} (p q : α → Bool) :
    ∀ l : List α, (l.filter p).any q = l.any (fun a => p a && q a) := by
  intro l
  induction l with
  | nil => rfl
  | cons a rest ih =>
    by_cases hp : p a = true
    · simp [List.filter_cons, hp, List.any_cons, ih]
    · simp only [Bool.not_eq_true] at hp
      simp [List.filter_cons, hp, List.any_cons, ih]

theorem scanExcludes_eq_hiddenScanIncludes (pid : ℕ) (items : List HiddenItem)
    (r : ScanRow) : scanExcludes pid items r = hiddenScanIncludes pid items r := by
  unfold scanExcludes hiddenScanIncludes
  rw [any_filter_eq]
  exact congrArg items.any (funext fun h => sqlHiddenMatch_eq_py pid h r)

theorem pyHiddenMatch_event_level (pid : ℕ) (e : String) (sn : Option String)
    (ex : ℚ) (r : ScanRow) :
    pyHiddenMatch ⟨pid, e, none, sn, ex⟩ r = (e == r.eventId) := by
  unfold pyHiddenMatch
  cases he : (e == r.eventId) <;> simp [he]

theorem pyHiddenMatch_market_level (pid : ℕ) (e m : String) (ex : ℚ) (r : ScanRow) :
    pyHiddenMatch ⟨pid, e, some m, none, ex⟩ r =
      (e == r.eventId && m == r.marketKey) := by
  unfold pyHiddenMatch
  cases he : (e == r.eventId) <;> cases hm : ((some m : Option String) == some r.marketKey) <;>
    simp_all

theorem pyHiddenMatch_selection_level (pid : ℕ) (e m s : String) (ex : ℚ) (r : ScanRow) :
    pyHiddenMatch ⟨pid, e, some m, some s, ex⟩ r =
      (e == r.eventId && m == r.marketKey && s == r.normalizedSelection) := by
  unfold pyHiddenMatch
  cases he : (e == r.eventId) <;> cases hm : ((some m : Option String) == some r.marketKey) <;>
    simp_all [Bool.and_assoc]

theorem sqlHiddenMatch_ignores_expiry (pid : ℕ) (h : HiddenItem) (e : ℚ) (r : ScanRow) :
    sqlHiddenMatch pid { h with expiryAt := e } r = sqlHiddenMatch pid h r := rfl

theorem scanExcludes_ignores_expiry (pid : ℕ) (items : List HiddenItem) (e : ℚ)
    (r : ScanRow) :
    scanExcludes pid (items.map (fun h => { h with expiryAt := e })) r =
      scanExcludes pid items r := by
  unfold scanExcludes
  rw [List.any_map]
  rfl

theorem cleanupDeletes_autoTrade (pid : ℕ) (ev : String) (mk sn : Option String)
    (t now : ℚ) :
    cleanupDeletes now (autoTradeHiddenItem pid ev mk sn t) =
      decide (t + 172800 < now) := by
  unfold cleanupDeletes autoTradeHiddenItem
  apply decide_eq_decide.mpr
  constructor <;> intro h <;> · simp only at h ⊢; linarith

theorem findPlacement_not_used (attempt : ℕ → ExOpp → Bool) :
    ∀ (opps : List ExOpp) (used : List ℕ) (k : ℕ) (o : ExOpp) (k' : ℕ),
      findPlacement attempt opps used k = (some o, k') → o.bookmakerId ∉ used := by
  intro opps
  induction opps with
  | nil => intro used k o k' h; exact absurd h (by simp [findPlacement])
  | cons hd rest ih =>
    intro used k o k' h
    rw [findPlacement] at h
    split_ifs at h with h1 h2
    · exact ih used k o k' h
    · obtain ⟨rfl, rfl⟩ : hd = o ∧ k + 1 = k' := by
        constructor <;> injection h <;> simp_all
      exact h1
    · exact ih used (k + 1) o k' h

theorem processPreset_inv (attempt : ℕ → ExOpp → Bool) (scans : ℕ → List ExOpp) :
    ∀ (fuel i k : ℕ) (used placed : List ℕ),
      placed.Nodup → (∀ b ∈ placed, b ∈ used) →
      (processPreset attempt scans fuel i k used placed).2.1.Nodup ∧
      (∀ b ∈ (processPreset attempt scans fuel i k used placed).2.1,
        b ∈ (processPreset attempt scans fuel i k used placed).1) := by
  intro fuel
  induction fuel with
  | zero => intro i k used placed h1 h2; exact ⟨h1, h2⟩
  | succ fuel ih =>
    intro i k used placed h1 h2
    rw [processPreset]
    rcases hfp : findPlacement attempt (scans i) used k with ⟨_ | o, k'⟩
    · exact ⟨h1, h2⟩
    · have hnu : o.bookmakerId ∉ used := findPlacement_not_used attempt _ _ _ _ _ hfp
      have hnp : o.bookmakerId ∉ placed := fun hmem => hnu (h2 _ hmem)
      apply ih (i + 1) k' (o.bookmakerId :: used) (placed ++ [o.bookmakerId])
      · simp [List.nodup_append, h1, hnp]
      · intro b hb
        rcases List.mem_append.mp hb with hb | hb
        · exact List.mem_cons_of_mem _ (h2 b hb)
        · simp only [List.mem_singleton] at hb
          simp [hb]

theorem executeAutoTrades_inv (attempt : ℕ → ExOpp → Bool) :
    ∀ (runs : List PresetRun) (used placed : List ℕ) (i k : ℕ),
      placed.Nodup → (∀ b ∈ placed, b ∈ used) →
      (executeAutoTrades attempt runs used placed i k).2.Nodup := by
  intro runs
  induction runs with
  | nil => intro used placed i k h1 _; exact h1
  | cons pr rest ih =>
    intro used placed i k h1 h2
    rw [executeAutoTrades]
    have h := processPreset_inv attempt pr.scans pr.fuel i k used placed h1 h2
    exact ih _ _ _ _ h.1 h.2

theorem placeBet_failure_frame (cfg : PresetCfg) (g : Gates) (opp : OppInfo)
    (api : ApiResult) (st : PlaceState)
    (hsim : cfg.simulate = false) (hfail : api.success = false) :
    placeBetForOpportunity cfg g opp api st = (st, false) := by
  unfold placeBetForOpportunity
  rw [hsim, hfail]
  split_ifs <;> simp_all

theorem findPlacement_skips_failed (attempt : ℕ → ExOpp → Bool) (o : ExOpp)
    (rest : List ExOpp) (used : List ℕ) (k : ℕ)
    (hnu : o.bookmakerId ∉ used) (hf : attempt k o = false) :
    findPlacement attempt (o :: rest) used k = findPlacement attempt rest used (k + 1) := by
  rw [findPlacement, if_neg hnu, hf]
  simp

theorem fuzzyBest_eq_foldl (selfKey extName : String) (candidates : List LeagueRec) :
    fuzzyBest selfKey extName candidates =
      candidates.foldl (fuzzyStep selfKey extName) (0, none) := rfl

theorem fuzzyStep_le (selfKey extName : String) (acc : ℚ × Option LeagueRec)
    (cand : LeagueRec) : acc.1 ≤ (fuzzyStep selfKey extName acc cand).1 := by
  unfold fuzzyStep
  split_ifs with h1 h2
  · exact le_refl _
  · exact le_of_lt h2
  · exact le_refl _

theorem fuzzyFold_le (selfKey extName : String) :
    ∀ (cands : List LeagueRec) (acc : ℚ × Option LeagueRec),
      acc.1 ≤ (cands.foldl (fuzzyStep selfKey extName) acc).1 := by
  intro cands
  induction cands with
  | nil => intro acc; exact le_refl _
  | cons c cs ih =>
    intro acc
    calc acc.1 ≤ (fuzzyStep selfKey extName acc c).1 := fuzzyStep_le _ _ _ _
    _ ≤ _ := ih _

theorem fuzzyFold_bound (selfKey extName : String) :
    ∀ (cands : List LeagueRec) (acc : ℚ × Option LeagueRec),
      ∀ c ∈ cands, ((selfKey ++ "_").isPrefixOf c.key) = false →
        candidateScore extName c.title ≤ (cands.foldl (fuzzyStep selfKey extName) acc).1 := by
  intro cands
  induction cands with
  | nil => intro acc c hc; exact absurd hc (List.not_mem_nil c)
  | cons hd cs ih =>
    intro acc c hc helig
    rcases List.mem_cons.mp hc with rfl | hc
    · have hstep : candidateScore extName c.title ≤ (fuzzyStep selfKey extName acc c).1 := by
        unfold fuzzyStep
        rw [if_neg (by simp [helig])]
        split_ifs with h2
        · exact le_refl _
        · exact le_of_not_lt h2
      calc candidateScore extName c.title ≤ (fuzzyStep selfKey extName acc c).1 := hstep
      _ ≤ _ := fuzzyFold_le selfKey extName cs _
    · exact ih _ c hc helig

theorem fuzzyFold_mem (selfKey extName : String) :
    ∀ (cands : List LeagueRec) (acc : ℚ × Option LeagueRec) (c : LeagueRec),
      (cands.foldl (fuzzyStep selfKey extName) acc).2 = some c →
      (c ∈ cands ∧ ((selfKey ++ "_").isPrefixOf c.key) = false ∧
        candidateScore extName c.title = (cands.foldl (fuzzyStep selfKey extName) acc).1) ∨
      (acc.2 = some c ∧ acc.1 = (cands.foldl (fuzzyStep selfKey extName) acc).1) := by
  intro cands
  induction cands with
  | nil => intro acc c h; exact Or.inr ⟨h, rfl⟩
  | cons hd cs ih =>
    intro acc c h
    rw [List.foldl_cons] at h ⊢
    rcases ih (fuzzyStep selfKey extName acc hd) c h with ⟨h1, h2, h3⟩ | ⟨h1, h2⟩
    · exact Or.inl ⟨List.mem_cons_of_mem _ h1, h2, h3⟩
    · by_cases helig : ((selfKey ++ "_").isPrefixOf hd.key) = true
      · have hstep : fuzzyStep selfKey extName acc hd = acc := by
          unfold fuzzyStep; rw [if_pos helig]
        rw [hstep] at h1 h2 ⊢
        exact Or.inr ⟨h1, h2⟩
      · simp only [Bool.not_eq_true] at helig
        by_cases hlt : acc.1 < candidateScore extName hd.title
        · have hstep : fuzzyStep selfKey extName acc hd =
              (candidateScore extName hd.title, some hd) := by
            unfold fuzzyStep; rw [if_neg (by simp [helig]), if_pos hlt]
          rw [hstep] at h1 h2 ⊢
          simp only [Option.some.injEq] at h1
          subst h1
          exact Or.inl ⟨List.mem_cons_self _ _, helig, h2⟩
        · have hstep : fuzzyStep selfKey extName acc hd = acc := by
            unfold fuzzyStep; rw [if_neg (by simp [helig]), if_neg hlt]
          rw [hstep] at h1 h2 ⊢
          exact Or.inr ⟨h1, h2⟩

theorem fuzzy_match_maps_to_best (selfKey extId extName : String)
    (cands : List LeagueRec) (k : String)
    (h : (fuzzy_match_league selfKey extId extName cands).1 = some k) :
    ∃ c ∈ cands, c.key = k ∧ ((selfKey ++ "_").isPrefixOf c.key) = false ∧
      17/20 < candidateScore extName c.title ∧
      ∀ c' ∈ cands, ((selfKey ++ "_").isPrefixOf c'.key) = false →
        candidateScore extName c'.title ≤ candidateScore extName c.title := by
  rw [fuzzy_match_league] at h
  by_cases hempty : cands.isEmpty = true
  · rw [if_pos hempty] at h
    simp at h
  · rw [if_neg hempty] at h
    rcases hbm : (fuzzyBest selfKey extName cands).2 with _ | bm
    · rw [hbm] at h
      simp at h
    · rw [hbm] at h
      by_cases hth : 17/20 < (fuzzyBest selfKey extName cands).1
      · simp only [hth, if_true, Option.some.injEq] at h
        have hfold := fuzzyFold_mem selfKey extName cands (0, none) bm
          (by rw [← fuzzyBest_eq_foldl]; exact hbm)
        rcases hfold with ⟨hmem, helig, hscore⟩ | ⟨habs, _⟩
        · rw [← fuzzyBest_eq_foldl] at hscore
          refine ⟨bm, hmem, h, helig, ?_, ?_⟩
          · rw [hscore]; exact hth
          · intro c' hc' helig'
            have hb := fuzzyFold_bound selfKey extName cands (0, none) c' hc' helig'
            rw [← fuzzyBest_eq_foldl] at hb
            rw [hscore]
            exact hb
        · exact absurd habs (by simp)
      · simp only [hth, if_false] at h
        simp at h

theorem fuzzy_match_pending (selfKey extId extName : String) (cands : List LeagueRec)
    (hlow : ∀ c ∈ cands, ((selfKey ++ "_").isPrefixOf c.key) = false →
      candidateScore extName c.title ≤ 17/20) :
    (fuzzy_match_league selfKey extId extName cands).1 = none ∧
    (fuzzy_match_league selfKey extId extName cands).2.internalKey = "PENDING" := by
  rw [fuzzy_match_league]
  by_cases hempty : cands.isEmpty = true
  · rw [if_pos hempty]
    exact ⟨rfl, rfl⟩
  · rw [if_neg hempty]
    rcases hbm : (fuzzyBest selfKey extName cands).2 with _ | bm
    · exact ⟨rfl, rfl⟩
    · have hfold := fuzzyFold_mem selfKey extName cands (0, none) bm
        (by rw [← fuzzyBest_eq_foldl]; exact hbm)
      rcases hfold with ⟨hmem, helig, hscore⟩ | ⟨habs, _⟩
      · have hle := hlow bm hmem helig
        rw [hscore, ← fuzzyBest_eq_foldl] at hle
        have hnlt : ¬ (17/20 < (fuzzyBest selfKey extName cands).1) := not_lt.mpr hle
        simp [hnlt]
      · exact absurd habs (by simp)

/-- Evaluation helper: `sm_ratio` on concrete strings via the computed
lengths and match total. -/
theorem sm_ratio_eval (sa sb : String) (la lb m : ℕ)
    (hla : sa.toList.length = la) (hlb : sb.toList.length = lb)
    (hm : matchesTotal sa.toList sb.toList (la + lb + 1) 0 la 0 lb = m)
    (hn : la + lb ≠ 0) :
    sm_ratio sa sb = 2 * (m : ℚ) / ((la + lb : ℕ) : ℚ) := by
  rw [sm_ratio, hla, hlb]
  rw [hm, if_neg hn]

theorem sm_ratio_alpha_self : sm_ratio "alpha" "alpha" = 1 := by
  have h := sm_ratio_eval "alpha" "alpha" 5 5 5 rfl rfl (by decide) (by norm_num)
  rw [h]; norm_num

theorem sm_ratio_alpha_abdg : sm_ratio "alpha" "alpha beta delta gamma" = 10/27 := by
  have h := sm_ratio_eval "alpha" "alpha beta delta gamma" 5 22 5 rfl rfl (by decide) (by norm_num)
  rw [h]; norm_num

theorem sm_ratio_alpha_abgd : sm_ratio "alpha" "alpha beta gamma delta" = 10/27 := by
  have h := sm_ratio_eval "alpha" "alpha beta gamma delta" 5 22 5 rfl rfl (by decide) (by norm_num)
  rw [h]; norm_num

theorem token_sort_alpha : token_sort_ratio "alpha" "alpha beta gamma delta" = 10/27 := by
  have hA : String.intercalate " " (pySortStrings (tokenize (normalize_title "alpha")))
      = "alpha" := by decide
  have hB : String.intercalate " "
      (pySortStrings (tokenize (normalize_title "alpha beta gamma delta")))
      = "alpha beta delta gamma" := by decide
  simp only [token_sort_ratio, hA, hB, sm_ratio_alpha_abdg]

theorem token_set_alpha : token_set_ratio "alpha" "alpha beta gamma delta" = 1 := by
  have hfilter : ((tokenize (normalize_title "alpha")).dedup).filter
      (fun t => ((tokenize (normalize_title "alpha beta gamma delta")).dedup).contains t)
      = ["alpha"] := by decide
  have hI : String.intercalate " " (pySortStrings ["alpha"]) = "alpha" := by decide
  have hT1 : String.intercalate " " (pySortStrings ((tokenize (normalize_title "alpha")).dedup))
      = "alpha" := by decide
  have hT2 : String.intercalate " "
      (pySortStrings ((tokenize (normalize_title "alpha beta gamma delta")).dedup))
      = "alpha beta delta gamma" := by decide
  simp only [token_set_ratio, hfilter, hI, hT1, hT2, sm_ratio_alpha_self, sm_ratio_alpha_abdg]
  norm_num [max_def]

theorem candidateScore_alpha : candidateScore "alpha" "alpha beta gamma delta" = 10/27 := by
  have e1 : normalize_title "alpha" = "alpha" := by decide
  have e2 : normalize_title "alpha beta gamma delta" = "alpha beta gamma delta" := by decide
  simp only [candidateScore, e1, e2, sm_ratio_alpha_abgd, token_sort_alpha, token_set_alpha]
  norm_num [max_def]

theorem claimCandidateScore_alpha :
    claimCandidateScore "alpha" "alpha beta gamma delta" = 1 := by
  have e1 : normalize_title "alpha" = "alpha" := by decide
  have e2 : normalize_title "alpha beta gamma delta" = "alpha beta gamma delta" := by decide
  simp only [claimCandidateScore, e1, e2, sm_ratio_alpha_abgd, token_sort_alpha, token_set_alpha]
  norm_num [max_def]

theorem resolve_mapping_pending_no_retry (selfKey mtype extId extName : String)
    (table : List MappingRec) (cands : List LeagueRec) (m : MappingRec)
    (hfind : table.find? (fun mm =>
        mm.source == selfKey && mm.mtype == mtype && mm.externalKey == extId) = some m)
    (hpend : m.internalKey = "PENDING") :
    resolve_mapping selfKey mtype extId extName table cands = (none, table) := by
  unfold resolve_mapping
  rw [hfind]
  simp [hpend]

/-- C1: `execute_auto_trades` places at most one bet per bookmaker per
invocation, across all presets of the cycle: the list of bookmaker ids of
the bets placed by one invocation (any scan results, any attempt
outcomes, any fuel) has no duplicates, because the shared
`cycle_used_bookmakers` set is checked before every attempt and extended
on every success. -/
theorem auto_trade_c1_one_bet_per_bookmaker (attempt : ℕ → ExOpp → Bool)
    (runs : List PresetRun) :
    (executeAutoTrades attempt runs [] [] 0 0).2.Nodup :=
  executeAutoTrades_inv attempt runs [] [] 0 0 List.nodup_nil (by simp)

/-- C2 (counterexample): the claim says a failed real-mode placement is
persisted in a failed state.  At a concrete input that passes every gate
and whose `place_bet` response is unsuccessful, the session ends with NO
persisted bet at all (and in particular none with a failed status): the
failure branch of `_place_bet_for_opportunity` never calls `db.add`. -/
theorem auto_trade_c2_counterexample :
    placeBetForOpportunity ⟨"fixed", none, none, none, false, none, some 10⟩
        ⟨true, true, true, true⟩ ⟨"E1", 7, "h2h", "Home", "home", 2, none⟩
        ⟨false, none⟩ ⟨[], 100⟩ = (⟨[], 100⟩, false) ∧
    ((placeBetForOpportunity ⟨"fixed", none, none, none, false, none, some 10⟩
        ⟨true, true, true, true⟩ ⟨"E1", 7, "h2h", "Home", "home", 2, none⟩
        ⟨false, none⟩ ⟨[], 100⟩).1.bets.filter (fun b => b.status == "failed")) = [] := by
  have h := placeBet_failure_frame
    ⟨"fixed", none, none, none, false, none, some 10⟩
    ⟨true, true, true, true⟩ ⟨"E1", 7, "h2h", "Home", "home", 2, none⟩
    ⟨false, none⟩ ⟨[], 100⟩ rfl rfl
  exact ⟨h, by rw [h]; rfl⟩

/-- C2 (amended): when `place_bet` returns an unsuccessful result in real
mode, NO bet is persisted (the constructed pending bet is discarded), the
bookmaker's balance is not mutated, `_place_bet_for_opportunity` returns
`False`, and the executor continues to the next opportunity of the pass
without aborting the preset. -/
theorem auto_trade_c2_amended :
    (∀ (cfg : PresetCfg) (g : Gates) (opp : OppInfo) (api : ApiResult) (st : PlaceState),
        cfg.simulate = false → api.success = false →
        placeBetForOpportunity cfg g opp api st = (st, false)) ∧
    (∀ (attempt : ℕ → ExOpp → Bool) (o : ExOpp) (rest : List ExOpp)
        (used : List ℕ) (k : ℕ),
        o.bookmakerId ∉ used → attempt k o = false →
        findPlacement attempt (o :: rest) used k = findPlacement attempt rest used (k + 1)) :=
  ⟨placeBet_failure_frame, findPlacement_skips_failed⟩

/-- C2 (witness): the amended statement at a concrete input. -/
theorem auto_trade_c2_witness :
    placeBetForOpportunity ⟨"kelly", none, none, none, false, none, some 10⟩
        ⟨true, true, true, true⟩ ⟨"E2", 3, "h2h", "Away", "away", 3, some 2⟩
        ⟨false, some "X"⟩ ⟨[⟨"E0", 1, "h2h", "home", 2, 5, "placed", none⟩], 50⟩
      = (⟨[⟨"E0", 1, "h2h", "home", 2, 5, "placed", none⟩], 50⟩, false) :=
  auto_trade_c2_amended.1 _ _ _ _ _ rfl rfl

/-- C3: ten or more failures inside the rolling five-minute window trip
the circuit for exactly one hour and clear the error history; while the
circuit is open every `make_request` call fails immediately, with no
network attempt and no state change; and any sequence of calls made
before the cool-off elapses leaves the error count at zero. -/
theorem circuit_breaker_c3 :
    (∀ (now : ℚ) (st : CBState), 10 ≤ (prunedErrors now st.recentErrors).length →
        handleRequestError now st = ⟨[], now + 3600⟩) ∧
    (∀ (now : ℚ) (nf : Bool) (st : CBState), now < st.openUntil →
        makeRequestStep now nf st = (.circuitOpen, st, false)) ∧
    (∀ (now : ℚ) (st : CBState) (reqs : List (ℚ × Bool)),
        10 ≤ (prunedErrors now st.recentErrors).length →
        (∀ r ∈ reqs, r.1 < now + 3600) →
        (runRequests (handleRequestError now st) reqs).recentErrors = []) :=
  ⟨handleRequestError_trips, makeRequestStep_open,
   fun now st reqs h hr => by
    rw [handleRequestError_trips now st h, runRequests_open (now + 3600) [] reqs hr]⟩

/-- C3 (witness): nine failures in the window plus a tenth at `t = 300`
trip the breaker until `t = 3900`; a call at `t = 1000` is rejected with no
network attempt; after two rejected calls the error history is still
empty. -/
theorem circuit_breaker_c3_witness :
    10 ≤ (prunedErrors 300 [10, 20, 30, 40, 50, 60, 70, 80, 90]).length ∧
    handleRequestError 300 ⟨[10, 20, 30, 40, 50, 60, 70, 80, 90], 0⟩ = ⟨[], 300 + 3600⟩ ∧
    makeRequestStep 1000 true ⟨[], 300 + 3600⟩ = (.circuitOpen, ⟨[], 300 + 3600⟩, false) ∧
    (runRequests (handleRequestError 300 ⟨[10, 20, 30, 40, 50, 60, 70, 80, 90], 0⟩)
      [(1000, true), (2000, false)]).recentErrors = [] := by
  have hlen : 10 ≤ (prunedErrors 300 [10, 20, 30, 40, 50, 60, 70, 80, 90]).length := by
    norm_num [prunedErrors, List.filter]
  refine ⟨hlen, ?_, ?_, ?_⟩
  · exact circuit_breaker_c3.1 300 ⟨[10, 20, 30, 40, 50, 60, 70, 80, 90], 0⟩ hlen
  · exact circuit_breaker_c3.2.1 1000 true ⟨[], 300 + 3600⟩ (by norm_num)
  · exact circuit_breaker_c3.2.2 300 ⟨[10, 20, 30, 40, 50, 60, 70, 80, 90], 0⟩
      [(1000, true), (2000, false)] hlen (by intro r hr; fin_cases hr <;> norm_num)

/-- C4: in a market where the benchmark bookmaker has rows (all prices
positive), every benchmark row gets
`implied_probability = (1/price)/Σ(1/price)`,
`true_odds = 1/implied_probability` and `margin = Σ(1/price) - 1`, the
sums over the benchmark's own rows; consequently the benchmark rows'
implied probabilities sum to exactly 1 (exact rationals; the source's
floats carry the corresponding rounding error). -/
theorem benchmark_c4_fair_odds (benchId : ℕ) (odds : List ARow)
    (hpos : ∀ o ∈ odds, 0 < o.price)
    (hne : odds.filter (fun o => o.bookmakerId == benchId) ≠ []) :
    (∀ o ∈ calculate_benchmark_values benchId odds, o.bookmakerId = benchId →
        o.impliedProbability = some ((1 / o.price) / bkTotalProb benchId odds) ∧
        o.trueOdds = some (1 / ((1 / o.price) / bkTotalProb benchId odds)) ∧
        o.margin = some (bkTotalProb benchId odds - 1)) ∧
    (((calculate_benchmark_values benchId odds).filter
        (fun o => o.bookmakerId == benchId)).map
      (fun o => o.impliedProbability.getD 0)).sum = 1 :=
  ⟨benchmark_rows_fields benchId odds hne, benchmark_rows_sum_one benchId odds hpos hne⟩

/-- C4 (witness): the theorem at the concrete market `benchOdds`. -/
theorem benchmark_c4_witness :
    (∀ o ∈ calculate_benchmark_values 1 benchOdds, o.bookmakerId = 1 →
        o.impliedProbability = some ((1 / o.price) / bkTotalProb 1 benchOdds) ∧
        o.trueOdds = some (1 / ((1 / o.price) / bkTotalProb 1 benchOdds)) ∧
        o.margin = some (bkTotalProb 1 benchOdds - 1)) ∧
    (((calculate_benchmark_values 1 benchOdds).filter
        (fun o => o.bookmakerId == 1)).map
      (fun o => o.impliedProbability.getD 0)).sum = 1 :=
  benchmark_c4_fair_odds 1 benchOdds
    (by intro o ho; fin_cases ho <;> norm_num)
    (by decide)

/-- C5 (counterexample): the claim fails as stated.  With
`strategy = "kelly"`, `probability = 1/2`, `odds = 1/2` (so
`probability ≤ 1/odds = 2`) and bankroll 100, the returned stake is 100,
not 0: for `odds < 1` the Kelly denominator `b = odds - 1` is negative and
the fraction comes out positive.  And with `max_stake = 0.996` the
returned stake is 1.00 > max_stake: the rounding to two decimals runs
after the cap. -/
theorem stake_c5_counterexample :
    calculate_stake "kelly" 10 100 (some (1/2)) (some (1/2)) none none none = 100 ∧
    ((1 : ℚ)/2) ≤ 1 / ((1 : ℚ)/2) ∧
    calculate_stake "fixed" 5 0 none none none none (some (249/250)) = 1 ∧
    ((249 : ℚ)/250) < 1 := by
  refine ⟨?_, by norm_num, ?_, by norm_num⟩
  · simp +decide only [calculate_stake, rawStake, kellyFraction, capStake]
    norm_num [round2, roundHalfEven, Int.fract]
  · simp +decide only [calculate_stake, rawStake, capStake]
    norm_num [round2, roundHalfEven, Int.fract, max_def]

/-- C5 (amended): for Kelly with `odds > 1` and a non-negative (or absent)
multiplier, `probability ≤ 1/odds` gives stake 0; for every strategy and
every input the stake is never negative; and with a non-negative
`max_stake` configured the stake never exceeds `max_stake` rounded to two
decimals (equivalently, never exceeds `max_stake + 0.005`). -/
theorem stake_c5_amended :
    (∀ (default_stake bankroll p o : ℚ) (pr km max_stake : Option ℚ),
        1 < o → 0 ≤ km.getD 1 → p ≤ 1 / o →
        calculate_stake "kelly" default_stake bankroll (some p) (some o) pr km max_stake = 0) ∧
    (∀ (strategy : String) (ds bk : ℚ) (p o pr km ms : Option ℚ),
        0 ≤ calculate_stake strategy ds bk p o pr km ms) ∧
    (∀ (strategy : String) (ds bk : ℚ) (p o pr km : Option ℚ) (m : ℚ),
        0 ≤ m → calculate_stake strategy ds bk p o pr km (some m) ≤ round2 m) :=
  ⟨kelly_no_edge_zero, calculate_stake_nonneg, calculate_stake_le_cap⟩

/-- C5 (witness): the amended statement at concrete inputs. -/
theorem stake_c5_witness :
    ((1 : ℚ) < 2 ∧ (0 : ℚ) ≤ (Option.getD (α := ℚ) none 1) ∧ ((2 : ℚ)/5) ≤ 1/(2 : ℚ) ∧
      calculate_stake "kelly" 10 100 (some (2/5)) (some 2) none none none = 0) ∧
    (0 : ℚ) ≤ calculate_stake "risk" 10 200 none none (some 50) none none ∧
    ((0 : ℚ) ≤ 3 ∧ calculate_stake "risk" 10 200 none none (some 50) none (some 3) ≤ round2 3) :=
  ⟨⟨by norm_num, by norm_num, by norm_num,
    stake_c5_amended.1 10 100 (2/5) 2 none none none (by norm_num) (by norm_num) (by norm_num)⟩,
   stake_c5_amended.2.1 "risk" 10 200 none none (some 50) none none,
   ⟨by norm_num, stake_c5_amended.2.2 "risk" 10 200 none none (some 50) none 3 (by norm_num)⟩⟩

/-- C6: hidden-item matching is hierarchical — an event-level hide
(`market_key` null) matches every row of the event, a market-level hide
(`selection_norm` null) exactly that market's rows, a selection-level hide
only the exact normalized selection — and the SQL NOT-EXISTS predicate of
the main scan excludes a row exactly when the in-Python predicate of the
hidden-opportunities scan includes it, for every hidden-item list and
every row. -/
theorem hidden_c6_hierarchy_equiv :
    (∀ (pid : ℕ) (items : List HiddenItem) (r : ScanRow),
        scanExcludes pid items r = hiddenScanIncludes pid items r) ∧
    (∀ (pid : ℕ) (e : String) (sn : Option String) (ex : ℚ) (r : ScanRow),
        pyHiddenMatch ⟨pid, e, none, sn, ex⟩ r = (e == r.eventId)) ∧
    (∀ (pid : ℕ) (e m : String) (ex : ℚ) (r : ScanRow),
        pyHiddenMatch ⟨pid, e, some m, none, ex⟩ r = (e == r.eventId && m == r.marketKey)) ∧
    (∀ (pid : ℕ) (e m s : String) (ex : ℚ) (r : ScanRow),
        pyHiddenMatch ⟨pid, e, some m, some s, ex⟩ r =
          (e == r.eventId && m == r.marketKey && s == r.normalizedSelection)) :=
  ⟨scanExcludes_eq_hiddenScanIncludes, pyHiddenMatch_event_level,
   pyHiddenMatch_market_level, pyHiddenMatch_selection_level⟩

/-- C7 (code bug): with the default configuration (`sort_by = edge`,
`sort_order = desc`) the row with a missing edge sorts FIRST, not last:
the `(1, 0)` sentinel is the largest key, and `reverse=True` puts the
largest first.  Ascending order does put it last.  This contradicts the
source's own comment ("Use a sentinel that sorts after everything
regardless of direction") and the spec. -/
theorem sort_c7_missing_first_desc :
    sortOpportunities ⟨none, none⟩ [oppMissingEdge, oppPresentEdge]
      = [oppMissingEdge, oppPresentEdge] ∧
    oppMissingEdge.edge = none ∧ oppPresentEdge.edge = some 5 ∧
    sortOpportunities ⟨none, some "asc"⟩ [oppMissingEdge, oppPresentEdge]
      = [oppPresentEdge, oppMissingEdge] :=
  ⟨by decide, rfl, rfl, by decide⟩

/-- C8 (counterexample): for external name "alpha" and candidate title
"alpha beta gamma delta" the code's candidate score is 10/27 ≈ 0.37 while
the best of the three ratios is 1.0 (the token-set ratio), because the
token-set ratio is only admitted when the token-sort ratio exceeds 0.6. -/
theorem fuzzy_c8_counterexample :
    candidateScore "alpha" "alpha beta gamma delta" = 10/27 ∧
    claimCandidateScore "alpha" "alpha beta gamma delta" = 1 ∧
    (10/27 : ℚ) < 1 :=
  ⟨candidateScore_alpha, claimCandidateScore_alpha, by norm_num⟩

/-- C8 (amended): the candidate score is the best of the plain ratio and
the token-sort ratio, with the token-set ratio admitted only when the
token-sort ratio exceeds 0.6; a best score strictly above 0.85 auto-maps
to the best-scoring eligible candidate, otherwise the mapping is recorded
PENDING; and an existing PENDING mapping short-circuits `resolve_mapping`
to `None` with no new fuzzy attempt and no table change. -/
theorem fuzzy_c8_amended :
    (∀ e c, candidateScore e c = amendedCandidateScore e c) ∧
    (∀ (selfKey extId extName : String) (cands : List LeagueRec) (k : String),
        (fuzzy_match_league selfKey extId extName cands).1 = some k →
        ∃ c ∈ cands, c.key = k ∧ ((selfKey ++ "_").isPrefixOf c.key) = false ∧
          17/20 < candidateScore extName c.title ∧
          ∀ c' ∈ cands, ((selfKey ++ "_").isPrefixOf c'.key) = false →
            candidateScore extName c'.title ≤ candidateScore extName c.title) ∧
    (∀ (selfKey extId extName : String) (cands : List LeagueRec),
        (∀ c ∈ cands, ((selfKey ++ "_").isPrefixOf c.key) = false →
          candidateScore extName c.title ≤ 17/20) →
        (fuzzy_match_league selfKey extId extName cands).1 = none ∧
        (fuzzy_match_league selfKey extId extName cands).2.internalKey = "PENDING") ∧
    (∀ (selfKey mtype extId extName : String) (table : List MappingRec)
        (cands : List LeagueRec) (m : MappingRec),
        table.find? (fun mm => mm.source == selfKey && mm.mtype == mtype &&
          mm.externalKey == extId) = some m →
        m.internalKey = "PENDING" →
        resolve_mapping selfKey mtype extId extName table cands = (none, table)) :=
  ⟨fun _ _ => rfl, fuzzy_match_maps_to_best, fuzzy_match_pending,
   resolve_mapping_pending_no_retry⟩

/-- C8 (witness): the amended statement at concrete inputs — a miss with
no candidates is recorded PENDING, and a lookup that finds a PENDING row
returns `None` leaving the table unchanged. -/
theorem fuzzy_c8_witness :
    ((fuzzy_match_league "bk" "E9" "alpha" []).1 = none ∧
      (fuzzy_match_league "bk" "E9" "alpha" []).2.internalKey = "PENDING") ∧
    resolve_mapping "bk" "league" "E1" "Alpha"
        [⟨"bk", "league", "E1", "PENDING", "Alpha"⟩] [] =
      (none, [⟨"bk", "league", "E1", "PENDING", "Alpha"⟩]) :=
  ⟨fuzzy_c8_amended.2.2.1 "bk" "E9" "alpha" [] (by simp),
   fuzzy_c8_amended.2.2.2 "bk" "league" "E1" "Alpha"
     [⟨"bk", "league", "E1", "PENDING", "Alpha"⟩] []
     ⟨"bk", "league", "E1", "PENDING", "Alpha"⟩ rfl rfl⟩

/-- C9 (counterexample): `calculate_stake("fixed", default_stake=0)`
returns 10, not 0: Python's `default_stake or 10.0` treats `0.0` as falsy. -/
theorem stake_c9_counterexample :
    calculate_stake "fixed" 0 0 none none none none none = 10 :=
  fixed_stake_zero 0 none none none none

/-- C9 (amended): with `max_stake` unset, `fixed` returns `default_stake`
clamped non-negative and rounded to two decimals whenever
`default_stake ≠ 0`, and returns 10 when `default_stake = 0` (the
`or 10.0` fallback). -/
theorem stake_c9_amended :
    (∀ (d bk : ℚ) (p o pr km : Option ℚ), d ≠ 0 →
        calculate_stake "fixed" d bk p o pr km none = round2 (max 0 d)) ∧
    (∀ (bk : ℚ) (p o pr km : Option ℚ),
        calculate_stake "fixed" 0 bk p o pr km none = 10) :=
  ⟨fixed_stake_nonzero, fixed_stake_zero⟩

/-- C9 (witness): the amended statement at `default_stake = 5`. -/
theorem stake_c9_witness :
    (5 : ℚ) ≠ 0 ∧ calculate_stake "fixed" 5 0 none none none none none = round2 (max 0 5) :=
  ⟨by norm_num, stake_c9_amended.1 5 0 none none none none (by norm_num)⟩

/-- C10: the scanner's suppression predicate never reads `expiry_at` — a
hidden item whose expiry lies in the past suppresses exactly as before —
and the cleanup job deletes an item only when `expiry_at < now - 1 day`,
so an auto-trade hidden item created at `t` (expiry `t + 24h`) is deleted
exactly when `now > t + 48h` and can keep suppressing until then. -/
theorem hidden_c10_expiry_ignored :
    (∀ (pid : ℕ) (h : HiddenItem) (e : ℚ) (r : ScanRow),
        sqlHiddenMatch pid { h with expiryAt := e } r = sqlHiddenMatch pid h r) ∧
    (∀ (pid : ℕ) (items : List HiddenItem) (e : ℚ) (r : ScanRow),
        scanExcludes pid (items.map (fun h => { h with expiryAt := e })) r =
          scanExcludes pid items r) ∧
    (∀ (pid : ℕ) (ev : String) (mk sn : Option String) (t now : ℚ),
        cleanupDeletes now (autoTradeHiddenItem pid ev mk sn t) =
          decide (t + 172800 < now)) :=
  ⟨sqlHiddenMatch_ignores_expiry, scanExcludes_ignores_expiry, cleanupDeletes_autoTrade⟩

end BetFinder
